import Mathlib

/-
  Verification of the sineart implicit-curve rasterizer and sine-wave
  composition engine against its specification.

  The Rust source is embedded shallowly:
  * `Point` (i32 coordinates) becomes a structure over `Int`;
  * the generic `Curve` equation type `T` becomes a `LinearOrderedCommRing`
    type parameter (`Int` for `AngledLine`, `Real` for `QuarterSine`);
  * the unbounded `while` loop of `Drawable::draw` becomes the fuel-indexed
    `walkAux`, returning `none` when the fuel runs out;
  * `u32` quantities of the plotter become `Nat` (the claims under study
    are not about wrap-around behaviour);
  * canvas pixel writes that would panic (coordinate underflow or an
    out-of-bounds `put_pixel`) are modelled as `none`.
-/

/-- Cartesian pixel coordinate, Y increases upward (src/curves.rs, `struct Point`). -/
structure Point where
  x : Int
  y : Int
  deriving DecidableEq, Repr

/-- Compass octant classes used by the rasterizer (src/curves.rs, `enum Slope`). -/
inductive Slope where
  | NorthEast
  | SouthEast
  | SouthWest
  | NorthWest
  deriving DecidableEq, Repr

/-- The three candidate next points of a walk step, in the fixed source order
(src/curves.rs, `Slope::next`). -/
def Slope.next (s : Slope) (p : Point) : Point × Point × Point :=
  match s with
  | .NorthEast => (⟨p.x, p.y + 1⟩, ⟨p.x + 1, p.y + 1⟩, ⟨p.x + 1, p.y⟩)
  | .SouthEast => (⟨p.x + 1, p.y⟩, ⟨p.x + 1, p.y - 1⟩, ⟨p.x, p.y - 1⟩)
  | .SouthWest => (⟨p.x, p.y - 1⟩, ⟨p.x - 1, p.y - 1⟩, ⟨p.x - 1, p.y⟩)
  | .NorthWest => (⟨p.x - 1, p.y⟩, ⟨p.x - 1, p.y + 1⟩, ⟨p.x, p.y + 1⟩)

/-- The candidates of `Slope.next` as a list, in enumeration order. -/
def Slope.nextList (s : Slope) (p : Point) : List Point :=
  [(s.next p).1, (s.next p).2.1, (s.next p).2.2]

/-- Octant classification of a start/stop pair (src/curves.rs, `Slope::between`). -/
def Slope.between (start stop : Point) : Slope :=
  if start.x < stop.x then
    if start.y < stop.y then .NorthEast else .SouthEast
  else
    if start.y < stop.y then .NorthWest else .SouthWest

/-- One selection step of the walk: Rust's `min_by` over the three candidates
keyed by `|equation|`; `min_by` keeps the earlier element on ties, which the
two-fold below reproduces (src/curves.rs, `Drawable::draw` loop body). -/
def nextPoint {α : Type} [LinearOrderedCommRing α] (e : Point → α) (s : Slope) (p : Point) : Point :=
  let a := (s.next p).1
  let b := (s.next p).2.1
  let c := (s.next p).2.2
  let m1 := if |e b| < |e a| then b else a
  if |e c| < |e m1| then c else m1

/-- Fuel-indexed embedding of the `while current != stop` loop of
`Drawable::draw`; the returned list is the sequence of points written to the
canvas (each with intensity 0), ending with `stop`. -/
def walkAux {α : Type} [LinearOrderedCommRing α] (e : Point → α) (s : Slope) (stop : Point) :
    Nat → Point → Option (List Point)
  | 0, cur => if cur = stop then some [cur] else none
  | n + 1, cur =>
      if cur = stop then some [cur]
      else (walkAux e s stop n (nextPoint e s cur)).map (cur :: ·)

/-- The pixel path produced by `Drawable::draw` for a curve with the given
equation and endpoints (src/curves.rs, lines 122-137). -/
def drawPath {α : Type} [LinearOrderedCommRing α] (e : Point → α) (start stop : Point)
    (fuel : Nat) : Option (List Point) :=
  walkAux e (Slope.between start stop) stop fuel start

/-- Spec-side characterisation (from the spec's words, for claim C1): `c` is
the element of `l` with minimal `f`-value, the first such in enumeration
order. -/
def specFirstArgmin {α : Type} [LinearOrderedCommRing α] (f : Point → α) (l : List Point)
    (c : Point) : Prop :=
  ∃ i, i < l.length ∧ l.getD i c = c
    ∧ (∀ j, j < l.length → f c ≤ f (l.getD j c))
    ∧ (∀ j, j < i → f c < f (l.getD j c))

lemma firstArgmin3 {α : Type} [LinearOrderedCommRing α] (f : Point → α) (a b c : Point) :
    specFirstArgmin f [a, b, c]
      (if f c < f (if f b < f a then b else a) then c else (if f b < f a then b else a)) := by
  by_cases h1 : f b < f a
  · rw [if_pos h1]
    by_cases h2 : f c < f b
    · rw [if_pos h2]
      refine ⟨2, by simp, by simp, ?_, ?_⟩
      · intro j hj
        simp only [List.length_cons, List.length_nil] at hj
        interval_cases j <;> simp [List.getD] <;> linarith
      · intro j hj
        interval_cases j <;> simp [List.getD] <;> linarith
    · rw [if_neg h2]
      refine ⟨1, by simp, by simp, ?_, ?_⟩
      · intro j hj
        simp only [List.length_cons, List.length_nil] at hj
        interval_cases j <;> simp [List.getD] <;> linarith [le_of_not_lt h2]
      · intro j hj
        interval_cases j <;> simp [List.getD] <;> linarith
  · rw [if_neg h1]
    by_cases h2 : f c < f a
    · rw [if_pos h2]
      refine ⟨2, by simp, by simp, ?_, ?_⟩
      · intro j hj
        simp only [List.length_cons, List.length_nil] at hj
        interval_cases j <;> simp [List.getD] <;> linarith [le_of_not_lt h1]
      · intro j hj
        interval_cases j <;> simp [List.getD] <;> linarith [le_of_not_lt h1]
    · rw [if_neg h2]
      refine ⟨0, by simp, by simp, ?_, ?_⟩
      · intro j hj
        simp only [List.length_cons, List.length_nil] at hj
        interval_cases j <;> simp [List.getD] <;> linarith [le_of_not_lt h1, le_of_not_lt h2]
      · intro j hj
        omega

/-- Claim C1: at every step the rasterizer's next point is the argmin of
`|equation|` over the three quadrant-specific candidates in their fixed
enumeration order, ties broken by the first-encountered candidate; and for
NorthEast at `(x, y)` that order is `[(x,y+1), (x+1,y+1), (x+1,y)]`. -/
theorem c1_next_point_is_first_argmin {α : Type} [LinearOrderedCommRing α]
    (e : Point → α) (s : Slope) (p : Point) (x y : Int) :
    specFirstArgmin (fun q => |e q|) (s.nextList p) (nextPoint e s p)
    ∧ Slope.nextList .NorthEast ⟨x, y⟩ =
        [⟨x, y + 1⟩, ⟨x + 1, y + 1⟩, ⟨x + 1, y⟩] := by
  refine ⟨?_, rfl⟩
  cases s <;> exact firstArgmin3 (fun q => |e q|) _ _ _

/-- Witness for C1 at a concrete equation, slope and point. -/
theorem c1_next_point_is_first_argmin_witness :
    specFirstArgmin (fun q => |(fun p : Point => 2 * p.y - p.x) q|)
      (Slope.nextList .NorthEast ⟨0, 0⟩)
      (nextPoint (fun p : Point => 2 * p.y - p.x) .NorthEast ⟨0, 0⟩)
    ∧ Slope.nextList .NorthEast ⟨0, 0⟩ = [⟨0, 1⟩, ⟨1, 1⟩, ⟨1, 0⟩] :=
  c1_next_point_is_first_argmin (fun p : Point => 2 * p.y - p.x) .NorthEast ⟨0, 0⟩ 0 0

/-- Counterexample for C6: a tie on the x axis is classified West, not toward
the "positive" (East) class: `between((10,10),(10,11))` is NorthWest. -/
theorem c6_counterexample_tie_goes_west :
    Slope.between ⟨10, 10⟩ ⟨10, 11⟩ = Slope.NorthWest
    ∧ Slope.between ⟨10, 10⟩ ⟨10, 11⟩ ≠ Slope.NorthEast
    ∧ Slope.between ⟨10, 10⟩ ⟨11, 10⟩ = Slope.SouthEast := by
  refine ⟨by decide, by decide, by decide⟩

/-- Claim C6 (amended): `Slope.between` is total and deterministic over the
four classes; `start.x < stop.x` selects East, otherwise West; within that,
`start.y < stop.y` selects North, otherwise South — so equal coordinates on
either axis default toward the West respectively South classes — and the four
concrete examples of the spec evaluate as stated. -/
theorem c6_slope_between_classification :
    (∀ a b : Point,
      (Slope.between a b = .NorthEast ↔ a.x < b.x ∧ a.y < b.y)
      ∧ (Slope.between a b = .SouthEast ↔ a.x < b.x ∧ b.y ≤ a.y)
      ∧ (Slope.between a b = .NorthWest ↔ b.x ≤ a.x ∧ a.y < b.y)
      ∧ (Slope.between a b = .SouthWest ↔ b.x ≤ a.x ∧ b.y ≤ a.y))
    ∧ Slope.between ⟨10, 10⟩ ⟨11, 11⟩ = .NorthEast
    ∧ Slope.between ⟨10, 10⟩ ⟨9, 11⟩ = .NorthWest
    ∧ Slope.between ⟨10, 10⟩ ⟨11, 9⟩ = .SouthEast
    ∧ Slope.between ⟨10, 10⟩ ⟨9, 9⟩ = .SouthWest := by
  refine ⟨fun a b => ?_, by decide, by decide, by decide, by decide⟩
  unfold Slope.between
  split_ifs with h1 h2 h3 <;>
    refine ⟨?_, ?_, ?_, ?_⟩ <;> simp_all <;> omega

/-- Quadrant of a sine wave travelling towards +X (src/curves/sine.rs,
`enum SineQuadrant`). -/
inductive SineQuadrant where
  | First
  | Second
  | Third
  | Fourth
  deriving DecidableEq, Repr

/-- The per-quadrant y delta of `SineQuadrant::stop`: `+amplitude` for First
and Fourth, `-amplitude` for Second and Third (src/curves/sine.rs, lines
146-151). -/
def SineQuadrant.dy (q : SineQuadrant) (amplitude : Nat) : Int :=
  match q with
  | .First => (amplitude : Int)
  | .Second => -(amplitude : Int)
  | .Third => -(amplitude : Int)
  | .Fourth => (amplitude : Int)

/-- Stopping point of a quarter sine from `start`: x advances by the quarter
wavelength, y by the quadrant delta (src/curves/sine.rs, `SineQuadrant::stop`). -/
def SineQuadrant.stop (q : SineQuadrant) (start : Point) (quarter_wavelength amplitude : Nat) :
    Point :=
  ⟨start.x + (quarter_wavelength : Int), start.y + q.dy amplitude⟩

/-- A quarter-period sine segment with cached stop point; amplitude and
quarter wavelength are pre-converted to the real-valued equation type
(src/curves/sine.rs, `struct QuarterSine`). -/
structure QuarterSine where
  start : Point
  stop : Point
  quadrant : SineQuadrant
  amplitude : Real
  quarter_wavelength : Real

/-- Constructor of a quarter sine (src/curves/sine.rs, `QuarterSine::new`). -/
noncomputable def QuarterSine.new (start : Point) (quadrant : SineQuadrant)
    (amplitude quarter_wavelength : Nat) : QuarterSine :=
  { start := start
    stop := quadrant.stop start quarter_wavelength amplitude
    quadrant := quadrant
    amplitude := (amplitude : Real)
    quarter_wavelength := (quarter_wavelength : Real) }

/-- Quadrant-specific implicit equation in local coordinates
(src/curves/sine.rs, `QuarterSine::equation_aux`). -/
noncomputable def QuarterSine.equation_aux (qs : QuarterSine) (x y : Int) : Real :=
  match qs.quadrant with
  | .First =>
      (y : Real) - qs.amplitude * Real.sin ((x : Real) * Real.pi / (2 * qs.quarter_wavelength))
  | .Second =>
      (y : Real) - qs.amplitude *
        (Real.cos ((x : Real) * Real.pi / (2 * qs.quarter_wavelength)) - 1)
  | .Third =>
      (y : Real) + qs.amplitude * Real.sin ((x : Real) * Real.pi / (2 * qs.quarter_wavelength))
  | .Fourth =>
      (y : Real) + qs.amplitude *
        (Real.cos ((x : Real) * Real.pi / (2 * qs.quarter_wavelength)) - 1)

/-- Implicit equation of a quarter sine, centred at its start point
(src/curves/sine.rs, `impl Curve for QuarterSine`). -/
noncomputable def QuarterSine.equation (qs : QuarterSine) (p : Point) : Real :=
  qs.equation_aux (p.x - qs.start.x) (p.y - qs.start.y)

/-- Anti-aliasing threshold of every quarter sine: the constant `PI`
(src/curves/sine.rs, `impl Curve for QuarterSine`). -/
noncomputable def QuarterSine.antialiased_threshold (_qs : QuarterSine) : Real :=
  Real.pi

/-- One full sine period (src/curves/sine.rs, `struct Sine`). -/
structure Sine where
  start : Point
  amplitude : Nat
  quarter_wavelength : Nat

/-- Constructor (src/curves/sine.rs, `Sine::new`). -/
def Sine.new (start : Point) (amplitude quarter_wavelength : Nat) : Sine :=
  ⟨start, amplitude, quarter_wavelength⟩

/-- Stopping point of the sine (src/curves/sine.rs, `Sine::stop`). -/
def Sine.stop (s : Sine) : Point :=
  ⟨s.start.x + 4 * (s.quarter_wavelength : Int), s.start.y⟩

/-- The next sine period, starting at this period's stop
(src/curves/sine.rs, `Sine::next`). -/
def Sine.next (s : Sine) : Sine :=
  Sine.new s.stop s.amplitude s.quarter_wavelength

/-- The four comprising quarters, each chained onto the previous stop
(src/curves/sine.rs, `Sine::quarters`). -/
noncomputable def Sine.quarters (s : Sine) :
    QuarterSine × QuarterSine × QuarterSine × QuarterSine :=
  let q1 := QuarterSine.new s.start .First s.amplitude s.quarter_wavelength
  let q2 := QuarterSine.new q1.stop .Second s.amplitude s.quarter_wavelength
  let q3 := QuarterSine.new q2.stop .Third s.amplitude s.quarter_wavelength
  let q4 := QuarterSine.new q3.stop .Fourth s.amplitude s.quarter_wavelength
  (q1, q2, q3, q4)

/-- Claim C4: chaining First → Second → Third → Fourth makes each quadrant's
stop the next quadrant's start, the final stop is `(start.x + 4W, start.y)`
and coincides with `Sine.stop`, and `Sine.next` starts the following period
exactly at the previous period's stop. -/
theorem c4_quarter_sine_closure (start : Point) (A W : Nat) :
    (Sine.new start A W).quarters.1.start = start
    ∧ (Sine.new start A W).quarters.2.1.start = (Sine.new start A W).quarters.1.stop
    ∧ (Sine.new start A W).quarters.2.2.1.start = (Sine.new start A W).quarters.2.1.stop
    ∧ (Sine.new start A W).quarters.2.2.2.start = (Sine.new start A W).quarters.2.2.1.stop
    ∧ (Sine.new start A W).quarters.2.2.2.stop = ⟨start.x + 4 * (W : Int), start.y⟩
    ∧ (Sine.new start A W).quarters.2.2.2.stop = (Sine.new start A W).stop
    ∧ (Sine.new start A W).next.start = (Sine.new start A W).stop := by
  refine ⟨rfl, rfl, rfl, rfl, ?_, ?_, rfl⟩ <;>
    · simp only [Sine.quarters, QuarterSine.new, SineQuadrant.stop, SineQuadrant.dy,
        Sine.new, Sine.stop, Point.mk.injEq]
      constructor <;> ring

/-- Claim C5: in local coordinates the quarter-sine equation is the stated
quadrant-specific formula, and the anti-aliasing threshold is the constant
`PI` for every quadrant. -/
theorem c5_quarter_sine_equations (start : Point) (A W : Nat) (p : Point) (q : SineQuadrant) :
    (QuarterSine.new start .First A W).equation p
      = ((p.y - start.y : Int) : Real)
        - (A : Real) * Real.sin (((p.x - start.x : Int) : Real) * Real.pi / (2 * (W : Real)))
    ∧ (QuarterSine.new start .Second A W).equation p
      = ((p.y - start.y : Int) : Real)
        - (A : Real) *
            (Real.cos (((p.x - start.x : Int) : Real) * Real.pi / (2 * (W : Real))) - 1)
    ∧ (QuarterSine.new start .Third A W).equation p
      = ((p.y - start.y : Int) : Real)
        + (A : Real) * Real.sin (((p.x - start.x : Int) : Real) * Real.pi / (2 * (W : Real)))
    ∧ (QuarterSine.new start .Fourth A W).equation p
      = ((p.y - start.y : Int) : Real)
        + (A : Real) *
            (Real.cos (((p.x - start.x : Int) : Real) * Real.pi / (2 * (W : Real))) - 1)
    ∧ (QuarterSine.new start q A W).antialiased_threshold = Real.pi := by
  exact ⟨rfl, rfl, rfl, rfl, rfl⟩

/-- Target inner canvas width computed by the plotter from the source image
width, the scale percent and the grid width `nw` (src/plotter.rs,
`Plotter::new`: `(source.width() * scale / 100 / nw_scale + 1) * nw_scale + 1`
with `nw_scale = nw * 4`). -/
def targetWidth (source_width scale nw : Nat) : Nat :=
  (source_width * scale / 100 / (nw * 4) + 1) * (nw * 4) + 1

/-- Target inner canvas height, preserving the source aspect ratio
(src/plotter.rs, `Plotter::new`). -/
def targetHeight (source_height source_width tw : Nat) : Nat :=
  source_height * tw / source_width

/-- Horizontal cell size (src/plotter.rs, `Plotter::cell_width`). -/
def cellWidth (iw nw : Nat) : Nat :=
  (iw - 1) / nw

/-- Vertical cell size (src/plotter.rs, `Plotter::cell_height`). -/
def cellHeight (ih nh : Nat) : Nat :=
  ih / nh

/-- Maximum sine amplitude (src/plotter.rs, `Plotter::max_amplitude`). -/
def maxAmplitude (ch : Nat) : Nat :=
  ch * 9 / 20

/-- Quarter wavelength of the per-cell sine (src/plotter.rs,
`Plotter::quarter_wavelength`). -/
def quarterWavelength (cw : Nat) : Nat :=
  cw / 4

/-- Grid-cell brightness clipped at the plotter threshold (src/plotter.rs,
`Plotter::get_pixel_as_u32`). -/
def getPixelAsU32 (pixel threshold : Nat) : Nat :=
  min pixel threshold

/-- Per-cell wave amplitude derived from brightness (src/plotter.rs,
`Plotter::draw`: `a = amax - amax * self.get_pixel_as_u32(cell_x, cell_y) / 255`). -/
def rowAmplitude (amax pixel threshold : Nat) : Nat :=
  amax - amax * getPixelAsU32 pixel threshold / 255

/-- Claim C7: for every source size, scale percent and positive grid width,
the inner canvas width is an exact multiple of `4 * gridWidth` plus 1;
consequently `cellWidth * gridWidth ≤ innerWidth - 1`, the quarter wavelength
is `cellWidth / 4`, and the maximum amplitude is `cellHeight * 9 / 20`
(all integer floor division). -/
theorem c7_plotter_geometry (sw sh scale nw nh : Nat) (_h : 0 < nw) :
    (∃ k, targetWidth sw scale nw = k * (4 * nw) + 1)
    ∧ cellWidth (targetWidth sw scale nw) nw * nw ≤ targetWidth sw scale nw - 1
    ∧ quarterWavelength (cellWidth (targetWidth sw scale nw) nw)
        = cellWidth (targetWidth sw scale nw) nw / 4
    ∧ maxAmplitude (cellHeight (targetHeight sh sw (targetWidth sw scale nw)) nh)
        = cellHeight (targetHeight sh sw (targetWidth sw scale nw)) nh * 9 / 20 := by
  refine ⟨⟨sw * scale / 100 / (nw * 4) + 1, by rw [targetWidth]; ring⟩, ?_, rfl, rfl⟩
  rw [cellWidth]
  exact Nat.div_mul_le_self _ _

/-- Witness for C7 at a 800x600 source, scale 100, a 50x50 grid. -/
theorem c7_plotter_geometry_witness :
    (∃ k, targetWidth 800 100 50 = k * (4 * 50) + 1)
    ∧ cellWidth (targetWidth 800 100 50) 50 * 50 ≤ targetWidth 800 100 50 - 1
    ∧ quarterWavelength (cellWidth (targetWidth 800 100 50) 50)
        = cellWidth (targetWidth 800 100 50) 50 / 4
    ∧ maxAmplitude (cellHeight (targetHeight 600 800 (targetWidth 800 100 50)) 50)
        = cellHeight (targetHeight 600 800 (targetWidth 800 100 50)) 50 * 9 / 20 :=
  c7_plotter_geometry 800 600 100 50 50 (by decide)

/-- Full and inner geometry of the canvas with centred offsets
(src/canvas.rs, `struct Canvas` and `Canvas::new`; the pixel buffer itself is
not needed for the coordinate claims). -/
structure CanvasGeom where
  fw : Nat
  fh : Nat
  iw : Nat
  ih : Nat
  ow : Nat
  oh : Nat

/-- Constructor from `[height, width]` pairs (src/canvas.rs, `Canvas::new`). -/
def CanvasGeom.new (full_hw inner_hw : Nat × Nat) : CanvasGeom :=
  { fh := full_hw.1
    fw := full_hw.2
    ih := inner_hw.1
    iw := inner_hw.2
    oh := (full_hw.1 - inner_hw.1) / 2
    ow := (full_hw.2 - inner_hw.2) / 2 }

/-- Cartesian pixel write (src/canvas.rs, `Canvas::set_xy`): the point maps to
raster pixel `(x + ow, fh - 1 - y - oh)` with no clipping. A `u32` underflow
in `fh - 1 - y - oh` or an out-of-bounds `put_pixel` panics; both are
modelled as `none`. -/
def CanvasGeom.set_xy (c : CanvasGeom) (x y : Nat) : Option (Nat × Nat) :=
  if c.fh ≤ y + c.oh then none
  else if c.fw ≤ x + c.ow then none
  else some (x + c.ow, c.fh - 1 - y - c.oh)

/-- Claim C10: `set_xy` is total only inside the canvas: it panics (returns
`none`) exactly when `x + ow ≥ fw` or `y + oh ≥ fh`; otherwise it writes the
raster pixel `(x + ow, fh - 1 - y - oh)`, whose row index is always in range,
and the constructor centres the inner region via the halved differences. -/
theorem c10_set_xy_bounds (c : CanvasGeom) (x y : Nat) :
    (c.set_xy x y = none ↔ (c.fw ≤ x + c.ow ∨ c.fh ≤ y + c.oh))
    ∧ (x + c.ow < c.fw → y + c.oh < c.fh →
        c.set_xy x y = some (x + c.ow, c.fh - 1 - y - c.oh)
        ∧ c.fh - 1 - y - c.oh < c.fh)
    ∧ (∀ full_hw inner_hw : Nat × Nat,
        (CanvasGeom.new full_hw inner_hw).ow = (full_hw.2 - inner_hw.2) / 2
        ∧ (CanvasGeom.new full_hw inner_hw).oh = (full_hw.1 - inner_hw.1) / 2) := by
  refine ⟨?_, ?_, fun _ _ => ⟨rfl, rfl⟩⟩ <;>
    · unfold CanvasGeom.set_xy
      split_ifs <;> simp_all <;> omega

/-- Witness for C10: an in-range write on a 10x10 canvas with an 8x8 inner
region lands at the mapped raster pixel. -/
theorem c10_set_xy_bounds_witness :
    2 + (CanvasGeom.new (10, 10) (8, 8)).ow < (CanvasGeom.new (10, 10) (8, 8)).fw
    ∧ ((CanvasGeom.new (10, 10) (8, 8)).set_xy 2 3
        = some (2 + (CanvasGeom.new (10, 10) (8, 8)).ow,
            (CanvasGeom.new (10, 10) (8, 8)).fh - 1 - 3 - (CanvasGeom.new (10, 10) (8, 8)).oh)
        ∧ (CanvasGeom.new (10, 10) (8, 8)).fh - 1 - 3 - (CanvasGeom.new (10, 10) (8, 8)).oh
            < (CanvasGeom.new (10, 10) (8, 8)).fh) :=
  ⟨by decide, (c10_set_xy_bounds (CanvasGeom.new (10, 10) (8, 8)) 2 3).2.1
    (by decide) (by decide)⟩

/-- Intensity byte for anti-aliased drawing (src/curves.rs,
`Curve::antialiased_value`): 255 when `|equation| > threshold`, otherwise
the `u32` truncations of value and threshold are divided as integers
(`value.to_u32() * 255 / threshold.to_u32()`); `.to_u32()` on a non-negative
number truncates towards zero, i.e. floors. -/
def antialiasedValue {α : Type} [LinearOrderedCommRing α] [FloorRing α]
    (e : Point → α) (t : α) (p : Point) : Nat :=
  if t < |e p| then 255
  else Int.toNat ⌊|e p|⌋ * 255 / Int.toNat ⌊t⌋

/-- A straight line as an implicit curve (src/curves/lines.rs,
`struct AngledLine` and `AngledLine::new`); `to_f64().sqrt().to_i32()` on a
sum of squares is the integer square root. -/
structure AngledLine where
  start : Point
  stop : Point
  dx : Int
  dy : Int
  aa_threshold : Int

/-- Constructor (src/curves/lines.rs, `AngledLine::new`). -/
def AngledLine.new (start stop : Point) : AngledLine :=
  { start := start
    stop := stop
    dx := stop.x - start.x
    dy := stop.y - start.y
    aa_threshold := Int.sqrt ((stop.x - start.x) ^ 2 + (stop.y - start.y) ^ 2) }

/-- Implicit equation of the line (src/curves/lines.rs,
`impl Curve for AngledLine`). -/
def AngledLine.equation (al : AngledLine) (p : Point) : Int :=
  al.dx * (p.y - al.start.y) - (p.x - al.start.x) * al.dy

/-- Writes performed by the loop of `Drawable::draw_antialiased`
(src/curves.rs, lines 149-161): at each non-stop point all three candidates
are written with their anti-aliased intensity before stepping. -/
def drawAAAux {α : Type} [LinearOrderedCommRing α] [FloorRing α]
    (e : Point → α) (t : α) (s : Slope) (stop : Point) :
    Nat → Point → Option (List (Point × Nat))
  | 0, cur => if cur = stop then some [] else none
  | n + 1, cur =>
      if cur = stop then some []
      else (drawAAAux e t s stop n (nextPoint e s cur)).map
        (fun rest =>
          ((s.next cur).1, antialiasedValue e t (s.next cur).1)
          :: ((s.next cur).2.1, antialiasedValue e t (s.next cur).2.1)
          :: ((s.next cur).2.2, antialiasedValue e t (s.next cur).2.2)
          :: rest)

/-- The full write sequence of `Drawable::draw_antialiased`: the start point
first, then the loop writes (src/curves.rs, lines 139-162). -/
def drawAntialiasedWrites {α : Type} [LinearOrderedCommRing α] [FloorRing α]
    (e : Point → α) (t : α) (start stop : Point) (fuel : Nat) :
    Option (List (Point × Nat)) :=
  (drawAAAux e t (Slope.between start stop) stop fuel start).map
    (fun ws => (start, antialiasedValue e t start) :: ws)

lemma div255_le (n m : Nat) (h : n ≤ m) : n * 255 / m ≤ 255 := by
  rcases Nat.eq_zero_or_pos m with hm | hm
  · subst hm
    interval_cases n
    simp
  · calc n * 255 / m ≤ m * 255 / m := Nat.div_le_div_right (Nat.mul_le_mul_right _ h)
    _ = 255 := Nat.mul_div_cancel_left _ hm

lemma drawAAAux_writes_are_av {α : Type} [LinearOrderedCommRing α] [FloorRing α]
    (e : Point → α) (t : α) (s : Slope) (stop : Point) :
    ∀ (fuel : Nat) (cur : Point) (ws : List (Point × Nat)),
      drawAAAux e t s stop fuel cur = some ws →
      ∀ w ∈ ws, w.2 = antialiasedValue e t w.1 := by
  intro fuel
  induction fuel with
  | zero =>
      intro cur ws hws w hw
      rw [drawAAAux] at hws
      split at hws
      · injection hws with h
        subst h
        simp at hw
      · exact Option.noConfusion hws
  | succ n ih =>
      intro cur ws hws w hw
      by_cases hc : cur = stop
      · simp [drawAAAux, hc] at hws
        subst hws
        simp at hw
      · rw [drawAAAux, if_neg hc] at hws
        cases hrec : drawAAAux e t s stop n (nextPoint e s cur) with
        | none => rw [hrec] at hws; simp at hws
        | some rest =>
            rw [hrec] at hws
            simp only [Option.map_some'] at hws
            injection hws with hws
            subst hws
            simp only [List.mem_cons] at hw
            rcases hw with rfl | rfl | rfl | hw
            · rfl
            · rfl
            · rfl
            · exact ih (nextPoint e s cur) rest hrec w hw

/-- Counterexample for C3: for the line from (0,0) to (1,300) the threshold
is 300 and the point (0,1) has `equation = 1 ≠ 0`, yet its anti-aliased
intensity is `1 * 255 / 300 = 0` — intensity 0 does not characterise points
on the curve. -/
theorem c3_counterexample_zero_off_curve :
    (AngledLine.new ⟨0, 0⟩ ⟨1, 300⟩).aa_threshold = 300
    ∧ (AngledLine.new ⟨0, 0⟩ ⟨1, 300⟩).equation ⟨0, 1⟩ ≠ 0
    ∧ antialiasedValue (AngledLine.new ⟨0, 0⟩ ⟨1, 300⟩).equation
        ((AngledLine.new ⟨0, 0⟩ ⟨1, 300⟩).aa_threshold : Int) ⟨0, 1⟩ = 0 := by
  have hsq : (AngledLine.new ⟨0, 0⟩ ⟨1, 300⟩).aa_threshold = 300 := by
    show Int.sqrt (((1 : Int) - 0) ^ 2 + ((300 : Int) - 0) ^ 2) = 300
    have h0 : Int.toNat (((1 : Int) - 0) ^ 2 + ((300 : Int) - 0) ^ 2) = 90001 := rfl
    rw [Int.sqrt, h0]
    have h1 : 300 ≤ Nat.sqrt 90001 := Nat.le_sqrt.mpr (by norm_num)
    have h2 : Nat.sqrt 90001 < 301 := Nat.sqrt_lt.mpr (by norm_num)
    omega
  refine ⟨hsq, by decide, ?_⟩
  rw [hsq]
  decide

/-- Claim C3 (amended): the anti-aliased intensity is 255 when
`|equation(p)| > threshold` and otherwise `⌊|equation(p)|⌋ * 255 / ⌊threshold⌋`
in integer arithmetic (value and threshold are truncated to `u32` before the
division); it always lies in [0,255]; it is 0 whenever `p` lies on the curve
(for a non-negative threshold), though not only there; and every byte written
by `draw_antialiased` is the anti-aliased intensity of its point. -/
theorem c3_antialiased_intensity {α : Type} [LinearOrderedCommRing α] [FloorRing α]
    (e : Point → α) (t : α) (p : Point) :
    antialiasedValue e t p ≤ 255
    ∧ (t < |e p| → antialiasedValue e t p = 255)
    ∧ (|e p| ≤ t → antialiasedValue e t p = Int.toNat ⌊|e p|⌋ * 255 / Int.toNat ⌊t⌋)
    ∧ (e p = 0 → 0 ≤ t → antialiasedValue e t p = 0)
    ∧ (∀ (start stop : Point) (fuel : Nat) (ws : List (Point × Nat)),
        drawAntialiasedWrites e t start stop fuel = some ws →
        ∀ w ∈ ws, w.2 = antialiasedValue e t w.1) := by
  refine ⟨?_, fun h => if_pos h, fun h => if_neg (not_lt.mpr h), fun h0 ht => ?_, ?_⟩
  · unfold antialiasedValue
    split_ifs with h
    · exact le_refl 255
    · exact div255_le _ _ (Int.toNat_le_toNat (Int.floor_le_floor (not_lt.mp h)))
  · unfold antialiasedValue
    rw [h0]
    simp [not_lt.mpr ht]
  · intro start stop fuel ws hws w hw
    unfold drawAntialiasedWrites at hws
    cases hrec : drawAAAux e t (Slope.between start stop) stop fuel start with
    | none => rw [hrec] at hws; simp at hws
    | some rest =>
        rw [hrec] at hws
        simp only [Option.map_some'] at hws
        injection hws with hws
        subst hws
        simp only [List.mem_cons] at hw
        rcases hw with rfl | hw
        · rfl
        · exact drawAAAux_writes_are_av e t (Slope.between start stop) stop fuel start
            rest hrec w hw

/-- Witness for C3: a point on a curve with threshold 1 gets intensity 0. -/
theorem c3_antialiased_intensity_witness :
    antialiasedValue (fun _ : Point => (0 : Int)) 1 ⟨0, 0⟩ = 0 :=
  (c3_antialiased_intensity (fun _ : Point => (0 : Int)) 1 ⟨0, 0⟩).2.2.2.1 rfl (by norm_num)

/-- Counterexample for C9: with `start = stop = (5,5)` the draw loop exits at
once after writing the single point — it succeeds instead of failing fast. -/
theorem c9_counterexample_no_fail_fast :
    drawPath (fun q : Point => 2 * q.y - q.x) ⟨5, 5⟩ ⟨5, 5⟩ 0 = some [⟨5, 5⟩]
    ∧ drawPath (fun q : Point => 2 * q.y - q.x) ⟨5, 5⟩ ⟨5, 5⟩ 0 ≠ none := by
  refine ⟨by decide, by decide⟩

/-- Panic-aware intensity byte of `Curve::antialiased_value` (src/curves.rs,
lines 107-118): Rust's `u32` division panics when the truncated threshold is
0, modelled as `none`; any non-panicking run returns the byte of
`antialiasedValue`. (The other panic of this function, the `.expect` on a
NaN equation value of a degenerate QuarterSine, has no counterpart in a
real-valued embedding.) -/
def antialiasedValueChecked {α : Type} [LinearOrderedCommRing α] [FloorRing α]
    (e : Point → α) (t : α) (p : Point) : Option Nat :=
  if t < |e p| then some 255
  else if Int.toNat ⌊t⌋ = 0 then none
  else some (Int.toNat ⌊|e p|⌋ * 255 / Int.toNat ⌊t⌋)

lemma antialiasedValueChecked_eq_some {α : Type} [LinearOrderedCommRing α] [FloorRing α]
    (e : Point → α) (t : α) (p : Point) (h : Int.toNat ⌊t⌋ ≠ 0) :
    antialiasedValueChecked e t p = some (antialiasedValue e t p) := by
  unfold antialiasedValueChecked antialiasedValue
  split_ifs <;> simp_all

/-- Claim C9 (amended): the degenerate-curve precondition is not checked:
whenever a Curve's start equals its stop, the plain `draw` loop exits
immediately after writing the single start point and surfaces no error;
`draw_antialiased`, by contrast, panics at its very first intensity
computation on a degenerate `AngledLine`, whose anti-aliasing threshold is 0,
through the `u32` division by zero — an error, though not a
degenerate-curve message. -/
theorem c9_degenerate_draw_succeeds_antialiased_panics {α : Type} [LinearOrderedCommRing α]
    (e : Point → α) (p q : Point) (fuel : Nat) :
    drawPath e p p fuel = some [p]
    ∧ (AngledLine.new p p).aa_threshold = 0
    ∧ antialiasedValueChecked (AngledLine.new p p).equation
        ((AngledLine.new p p).aa_threshold) q = none := by
  have hthr : (AngledLine.new p p).aa_threshold = 0 := by
    show Int.sqrt ((p.x - p.x) ^ 2 + (p.y - p.y) ^ 2) = 0
    simp [Int.sqrt]
  have heq : (AngledLine.new p p).equation q = 0 := by
    show (p.x - p.x) * (q.y - p.y) - (q.x - p.x) * (p.y - p.y) = 0
    ring
  refine ⟨?_, hthr, ?_⟩
  · cases fuel <;> simp [drawPath, walkAux]
  · unfold antialiasedValueChecked
    rw [hthr, heq]
    decide

/-- The axis-aligned bounding box spanned by the start and stop points of a
traversal; "the walk makes progress along the fixed octant, no backtracking"
(the spec's loop invariant) is formalised as the chosen next point staying in
this box. -/
def inBox (start stop p : Point) : Prop :=
  min start.x stop.x ≤ p.x ∧ p.x ≤ max start.x stop.x
  ∧ min start.y stop.y ≤ p.y ∧ p.y ≤ max start.y stop.y

instance (start stop p : Point) : Decidable (inBox start stop p) := by
  unfold inBox
  infer_instance

/-- Enumeration of all integer points of the bounding box. -/
def boxList (start stop : Point) : List Point :=
  (List.range ((stop.x - start.x).natAbs + 1)).flatMap fun (i : Nat) =>
    (List.range ((stop.y - start.y).natAbs + 1)).map fun (j : Nat) =>
      (⟨min start.x stop.x + (i : Int), min start.y stop.y + (j : Int)⟩ : Point)

/-- Decidable form of the no-backtracking hypothesis of claim C2: from every
box point other than stop, the selected next point stays in the box. -/
def boxStepInvariant {α : Type} [LinearOrderedCommRing α] (e : Point → α)
    (start stop : Point) : Bool :=
  (boxList start stop).all fun p =>
    if p = stop then true
    else decide (inBox start stop (nextPoint e (Slope.between start stop) p))

/-- Taxicab distance between two points. -/
def distL1 (p q : Point) : Nat :=
  (q.x - p.x).natAbs + (q.y - p.y).natAbs

/-- Chebyshev distance between two points; consecutive 8-connected pixels are
exactly those at distance 1. -/
def distCheb (p q : Point) : Nat :=
  max (q.x - p.x).natAbs (q.y - p.y).natAbs

lemma inBox_mem_boxList (start stop p : Point) (h : inBox start stop p) :
    p ∈ boxList start stop := by
  obtain ⟨px, py⟩ := p
  obtain ⟨h1, h2, h3, h4⟩ := h
  dsimp only at h1 h2 h3 h4
  unfold boxList
  rw [List.mem_flatMap]
  have hib : (px - min start.x stop.x).toNat < (stop.x - start.x).natAbs + 1 := by omega
  have hjb : (py - min start.y stop.y).toNat < (stop.y - start.y).natAbs + 1 := by omega
  have hrw : (⟨px, py⟩ : Point)
      = ⟨min start.x stop.x + ((px - min start.x stop.x).toNat : Int),
         min start.y stop.y + ((py - min start.y stop.y).toNat : Int)⟩ := by
    simp only [Point.mk.injEq]
    constructor <;> omega
  rw [hrw]
  exact ⟨(px - min start.x stop.x).toNat, List.mem_range.mpr hib,
    List.mem_map_of_mem _ (List.mem_range.mpr hjb)⟩

lemma boxStepInvariant_spec {α : Type} [LinearOrderedCommRing α] (e : Point → α)
    (start stop : Point) (H : boxStepInvariant e start stop = true) :
    ∀ p, inBox start stop p → p ≠ stop →
      inBox start stop (nextPoint e (Slope.between start stop) p) := by
  intro p hp hne
  have hmem := inBox_mem_boxList start stop p hp
  have hall := (List.all_eq_true.mp H) p hmem
  rw [if_neg hne] at hall
  exact of_decide_eq_true hall

lemma nextPoint_mem_nextList {α : Type} [LinearOrderedCommRing α] (e : Point → α)
    (s : Slope) (p : Point) :
    nextPoint e s p = (s.next p).1 ∨ nextPoint e s p = (s.next p).2.1
    ∨ nextPoint e s p = (s.next p).2.2 := by
  unfold nextPoint
  dsimp only
  split_ifs <;> tauto

lemma distCheb_next (s : Slope) (p : Point) :
    distCheb p (s.next p).1 = 1 ∧ distCheb p (s.next p).2.1 = 1
    ∧ distCheb p (s.next p).2.2 = 1 := by
  obtain ⟨px, py⟩ := p
  cases s <;> refine ⟨?_, ?_, ?_⟩ <;> simp [Slope.next, distCheb] <;> omega

lemma nextPoint_closer {α : Type} [LinearOrderedCommRing α] (e : Point → α)
    (start stop p : Point) (hp : inBox start stop p)
    (hq : inBox start stop (nextPoint e (Slope.between start stop) p)) :
    distL1 (nextPoint e (Slope.between start stop) p) stop < distL1 p stop := by
  have hmem := nextPoint_mem_nextList e (Slope.between start stop) p
  rcases hmem with hq1 | hq1 | hq1 <;>
    rw [hq1] at hq ⊢ <;>
    · obtain ⟨px, py⟩ := p
      obtain ⟨sx, sy⟩ := start
      obtain ⟨tx, ty⟩ := stop
      unfold Slope.between at hq ⊢
      split_ifs at hq ⊢ <;>
        simp_all [Slope.next, inBox, distL1] <;> omega

lemma walk_reaches {α : Type} [LinearOrderedCommRing α] (e : Point → α)
    (start stop : Point) (H : boxStepInvariant e start stop = true) :
    ∀ (fuel : Nat) (cur : Point), inBox start stop cur → distL1 cur stop ≤ fuel →
      ∃ path, walkAux e (Slope.between start stop) stop fuel cur = some path
        ∧ path.head? = some cur
        ∧ path.getLast? = some stop
        ∧ List.Chain' (fun a b => distCheb a b = 1) path
        ∧ path.length ≤ distL1 cur stop + 1
        ∧ ∀ p ∈ path.dropLast, p ≠ stop := by
  intro fuel
  induction fuel with
  | zero =>
      intro cur hin hd
      have hcs : cur = stop := by
        obtain ⟨cx, cy⟩ := cur
        obtain ⟨tx, ty⟩ := stop
        have h0 : distL1 ⟨cx, cy⟩ ⟨tx, ty⟩ = 0 := Nat.le_zero.mp hd
        unfold distL1 at h0
        simp only [Point.mk.injEq]
        dsimp only at h0
        constructor <;> omega
      subst hcs
      exact ⟨[cur], by simp [walkAux], by simp, by simp, by simp,
        by simp [distL1], by simp⟩
  | succ n ih =>
      intro cur hin hd
      by_cases hc : cur = stop
      · subst hc
        exact ⟨[cur], by simp [walkAux], by simp, by simp, by simp,
          by simp [distL1], by simp⟩
      · have hq : inBox start stop (nextPoint e (Slope.between start stop) cur) :=
          boxStepInvariant_spec e start stop H cur hin hc
        have hlt : distL1 (nextPoint e (Slope.between start stop) cur) stop
            < distL1 cur stop := nextPoint_closer e start stop cur hin hq
        have hdn : distL1 (nextPoint e (Slope.between start stop) cur) stop ≤ n := by omega
        obtain ⟨path, hpath, hhead, hlast, hchain, hlen, hdrop⟩ :=
          ih (nextPoint e (Slope.between start stop) cur) hq hdn
        cases path with
        | nil => simp at hhead
        | cons q rest =>
            have hqeq : q = nextPoint e (Slope.between start stop) cur := by
              simp at hhead
              exact hhead
            refine ⟨cur :: q :: rest, ?_, by simp, ?_, ?_, ?_, ?_⟩
            · rw [walkAux, if_neg hc, hpath]
              rfl
            · rw [List.getLast?_cons_cons]
              exact hlast
            · rw [List.chain'_cons']
              refine ⟨?_, hchain⟩
              intro b hb
              simp only [List.head?_cons, Option.mem_some_iff] at hb
              subst hb
              rw [hqeq]
              rcases nextPoint_mem_nextList e (Slope.between start stop) cur with h | h | h <;>
                rw [h]
              · exact (distCheb_next (Slope.between start stop) cur).1
              · exact (distCheb_next (Slope.between start stop) cur).2.1
              · exact (distCheb_next (Slope.between start stop) cur).2.2
            · simp only [List.length_cons] at hlen ⊢
              omega
            · intro p hp
              rw [List.dropLast_cons₂] at hp
              rcases List.mem_cons.mp hp with rfl | hp2
              · exact hc
              · exact hdrop p hp2

lemma chain_length_lower :
    ∀ (path : List Point) (a b : Point),
      List.Chain' (fun p q => distCheb p q = 1) path →
      path.head? = some a → path.getLast? = some b →
      distCheb a b + 1 ≤ path.length := by
  intro path
  induction path with
  | nil =>
      intro a b _ hhead _
      simp at hhead
  | cons c rest ih =>
      intro a b hchain hhead hlast
      have hac : c = a := by
        simp only [List.head?_cons, Option.some.injEq] at hhead
        exact hhead
      subst hac
      cases rest with
      | nil =>
          simp only [List.getLast?_singleton, Option.some.injEq] at hlast
          subst hlast
          simp [distCheb]
      | cons d rest2 =>
          rw [List.chain'_cons'] at hchain
          have hcd : distCheb c d = 1 := hchain.1 d (by simp)
          have hlast2 : (d :: rest2).getLast? = some b := by
            rw [← List.getLast?_cons_cons (l := rest2) (a := c)]
            exact hlast
          have hrec := ih d b hchain.2 (by simp) hlast2
          have htri : distCheb c b ≤ distCheb c d + distCheb d b := by
            obtain ⟨cx, cy⟩ := c
            obtain ⟨dx, dy⟩ := d
            obtain ⟨bx, by'⟩ := b
            unfold distCheb
            dsimp only
            omega
          simp only [List.length_cons] at hrec ⊢
          omega

/-- Counterexample for C2: for the monotone curve `y = h(x)` with
`h(x) = 3x` up to `x = 1` and `h(x) = 3` beyond (tangent always in the
NorthEast octant), the walk from (0,0) to (2,3) keeps the no-backtracking
box invariant yet visits 5 pixels, not `max(|dx|,|dy|) + 1 = 4`. -/
theorem c2_counterexample_path_longer_than_cheb :
    ((⟨0, 0⟩ : Point) ≠ (⟨2, 3⟩ : Point))
    ∧ boxStepInvariant (fun p : Point => p.y - (if p.x ≤ 1 then 3 * p.x else 3))
        ⟨0, 0⟩ ⟨2, 3⟩ = true
    ∧ drawPath (fun p : Point => p.y - (if p.x ≤ 1 then 3 * p.x else 3))
        ⟨0, 0⟩ ⟨2, 3⟩ 5
        = some [⟨0, 0⟩, ⟨0, 1⟩, ⟨1, 2⟩, ⟨1, 3⟩, ⟨2, 3⟩]
    ∧ ([(⟨0, 0⟩ : Point), ⟨0, 1⟩, ⟨1, 2⟩, ⟨1, 3⟩, ⟨2, 3⟩] : List Point).length
        ≠ distCheb ⟨0, 0⟩ ⟨2, 3⟩ + 1 := by
  refine ⟨by decide, by decide, by decide, by decide⟩

/-- Claim C2 (amended): for every curve whose start differs from its stop and
whose selection steps keep the no-backtracking octant invariant (the chosen
next point of every non-stop box point stays in the start/stop bounding box),
the draw loop terminates with taxicab-distance fuel, exactly when the current
point equals stop and after writing it (stop closes the path and occurs
nowhere earlier); the visited pixels form a connected 8-path from start to
stop whose length lies between `max(|dx|,|dy|) + 1` and `|dx| + |dy| + 1`. -/
theorem c2_walk_terminates_connected {α : Type} [LinearOrderedCommRing α]
    (e : Point → α) (start stop : Point) (_hne : start ≠ stop)
    (H : boxStepInvariant e start stop = true) :
    ∃ path, drawPath e start stop (distL1 start stop) = some path
      ∧ path.head? = some start
      ∧ path.getLast? = some stop
      ∧ List.Chain' (fun a b => distCheb a b = 1) path
      ∧ distCheb start stop + 1 ≤ path.length
      ∧ path.length ≤ distL1 start stop + 1
      ∧ ∀ p ∈ path.dropLast, p ≠ stop := by
  have hin : inBox start stop start :=
    ⟨min_le_left _ _, le_max_left _ _, min_le_left _ _, le_max_left _ _⟩
  obtain ⟨path, h1, h2, h3, h4, h5, h6⟩ :=
    walk_reaches e start stop H (distL1 start stop) start hin (le_refl _)
  exact ⟨path, h1, h2, h3, h4, chain_length_lower path start stop h4 h2 h3, h5, h6⟩

/-- Witness for C2 at the line `2y = x` from (0,0) to (2,1). -/
theorem c2_walk_terminates_connected_witness :
    ∃ path, drawPath (fun p : Point => 2 * p.y - p.x) ⟨0, 0⟩ ⟨2, 1⟩
        (distL1 ⟨0, 0⟩ ⟨2, 1⟩) = some path
      ∧ path.head? = some ⟨0, 0⟩
      ∧ path.getLast? = some ⟨2, 1⟩
      ∧ List.Chain' (fun a b => distCheb a b = 1) path
      ∧ distCheb ⟨0, 0⟩ ⟨2, 1⟩ + 1 ≤ path.length
      ∧ path.length ≤ distL1 ⟨0, 0⟩ ⟨2, 1⟩ + 1
      ∧ ∀ p ∈ path.dropLast, p ≠ (⟨2, 1⟩ : Point) :=
  c2_walk_terminates_connected (fun p : Point => 2 * p.y - p.x) ⟨0, 0⟩ ⟨2, 1⟩
    (by decide) (by decide)

/-- The horizontal pixel run of length `n + 1` starting at `p`. -/
def horizontalRun (p : Point) (n : Nat) : List Point :=
  (List.range (n + 1)).map fun (i : Nat) => ⟨p.x + (i : Int), p.y⟩

lemma horizontalRun_cons (p : Point) (n : Nat) :
    horizontalRun p (n + 1) = p :: horizontalRun ⟨p.x + 1, p.y⟩ n := by
  unfold horizontalRun
  rw [List.range_succ_eq_map]
  simp only [List.map_cons, List.map_map]
  congr 1
  · simp
  · apply List.map_congr_left
    intro i _
    simp only [Function.comp_apply, Point.mk.injEq, and_true]
    push_cast
    ring

lemma quarterSine_equation_amp0 (s : Point) (q : SineQuadrant) (W : Nat) (p : Point) :
    (QuarterSine.new s q 0 W).equation p = ((p.y - s.y : Int) : Real) := by
  cases q <;>
    simp [QuarterSine.new, QuarterSine.equation, QuarterSine.equation_aux]

lemma walk_flat (y0 : Int) :
    ∀ (k : Nat) (cx : Int),
      walkAux (fun p : Point => ((p.y - y0 : Int) : Real)) Slope.SouthEast
        ⟨cx + (k : Int), y0⟩ k ⟨cx, y0⟩ = some (horizontalRun ⟨cx, y0⟩ k) := by
  intro k
  induction k with
  | zero =>
      intro cx
      rw [walkAux, if_pos (by simp)]
      simp [horizontalRun, show List.range 1 = [0] from rfl]
  | succ n ih =>
      intro cx
      rw [walkAux, if_neg (by simp only [Point.mk.injEq]; push_cast; omega)]
      have hnp : nextPoint (fun p : Point => ((p.y - y0 : Int) : Real)) Slope.SouthEast
          ⟨cx, y0⟩ = ⟨cx + 1, y0⟩ := by
        unfold nextPoint
        dsimp only [Slope.next]
        have e1 : ((y0 - y0 : Int) : Real) = 0 := by push_cast; ring
        have e2 : ((y0 - 1 - y0 : Int) : Real) = -1 := by push_cast; ring
        simp only [e1, e2]
        norm_num
      rw [hnp]
      have ihx := ih (cx + 1)
      have harg : (⟨cx + 1 + (n : Int), y0⟩ : Point) = ⟨cx + ((n + 1 : Nat) : Int), y0⟩ := by
        simp only [Point.mk.injEq, and_true]
        push_cast
        ring
      rw [harg] at ihx
      rw [ihx]
      rw [horizontalRun_cons]
      rfl

/-- Claim C8: the drawn wave's amplitude is
`maxAmplitude - maxAmplitude * min(pixel, threshold) / 255`, so a darker
pixel gives an amplitude closer to `maxAmplitude`; an all-white pixel with
threshold 255 gives amplitude 0 and the amplitude-0 quarter curves rasterize
to a flat horizontal run at the start height; an all-black pixel gives
amplitude `maxAmplitude`. -/
theorem c8_amplitude_from_brightness (amax pixel pixel2 threshold : Nat)
    (s : Point) (W : Nat) (q : SineQuadrant) :
    rowAmplitude amax pixel threshold = amax - amax * min pixel threshold / 255
    ∧ (pixel ≤ pixel2 →
        rowAmplitude amax pixel2 threshold ≤ rowAmplitude amax pixel threshold)
    ∧ rowAmplitude amax 255 255 = 0
    ∧ rowAmplitude amax 0 threshold = amax
    ∧ drawPath (QuarterSine.new s q 0 W).equation (QuarterSine.new s q 0 W).start
        (QuarterSine.new s q 0 W).stop W = some (horizontalRun s W) := by
  refine ⟨rfl, ?_, ?_, ?_, ?_⟩
  · intro h
    unfold rowAmplitude getPixelAsU32
    exact Nat.sub_le_sub_left
      (Nat.div_le_div_right (Nat.mul_le_mul_left _ (min_le_min h le_rfl))) _
  · unfold rowAmplitude getPixelAsU32
    have h255 : amax * 255 / 255 = amax := Nat.mul_div_cancel amax (by norm_num)
    simp only [min_self, h255, Nat.sub_self]
  · unfold rowAmplitude getPixelAsU32
    simp
  · have hstart : (QuarterSine.new s q 0 W).start = s := rfl
    have hstop : (QuarterSine.new s q 0 W).stop = ⟨s.x + (W : Int), s.y⟩ := by
      cases q <;> simp [QuarterSine.new, SineQuadrant.stop, SineQuadrant.dy]
    have heq : (QuarterSine.new s q 0 W).equation
        = fun p : Point => ((p.y - s.y : Int) : Real) :=
      funext fun p => quarterSine_equation_amp0 s q W p
    rw [drawPath, hstart, hstop, heq]
    cases W with
    | zero =>
        have hstop0 : (⟨s.x + ((0 : Nat) : Int), s.y⟩ : Point) = s := by
          show (⟨s.x + ((0 : Nat) : Int), s.y⟩ : Point) = ⟨s.x, s.y⟩
          simp
        rw [hstop0, walkAux, if_pos rfl]
        simp [horizontalRun, show List.range 1 = [0] from rfl]
    | succ n =>
        have hse : Slope.between s ⟨s.x + ((n + 1 : Nat) : Int), s.y⟩ = Slope.SouthEast := by
          unfold Slope.between
          rw [if_pos (by dsimp only; push_cast; omega), if_neg (by dsimp only; omega)]
        rw [hse]
        have := walk_flat s.y (n + 1) s.x
        convert this using 2
  
/-- Witness for C8: a concrete amplitude computation and flat run. -/
theorem c8_amplitude_from_brightness_witness :
    rowAmplitude 20 200 255 ≤ rowAmplitude 20 100 255
    ∧ rowAmplitude 20 255 255 = 0
    ∧ rowAmplitude 20 0 255 = 20
    ∧ drawPath (QuarterSine.new ⟨0, 0⟩ .First 0 1).equation
        (QuarterSine.new ⟨0, 0⟩ .First 0 1).start
        (QuarterSine.new ⟨0, 0⟩ .First 0 1).stop 1 = some (horizontalRun ⟨0, 0⟩ 1) :=
  ⟨(c8_amplitude_from_brightness 20 100 200 255 ⟨0, 0⟩ 1 .First).2.1 (by norm_num),
    (c8_amplitude_from_brightness 20 255 255 255 ⟨0, 0⟩ 1 .First).2.2.1,
    (c8_amplitude_from_brightness 20 0 0 255 ⟨0, 0⟩ 1 .First).2.2.2.1,
    (c8_amplitude_from_brightness 20 0 0 255 ⟨0, 0⟩ 1 .First).2.2.2.2⟩
